import Mathlib

/-!
# Verification of the `immigration` migration engine

Shallow embedding of the migration orchestration engine
(`packages/immigration/src/index.ts`): the lister (`Migrate.list`), the
filesystem storage backend (`FS_STORAGE`), the consistency validator and
executor inside `Migrate.migrate`, and the lock coordinator
(`Migrate.acquire`).  Filenames and identifiers are JavaScript strings,
modeled as their code-point sequences (`JsStr := List Char`) and compared
lexicographically, which coincides with JavaScript's code-unit comparison
on the ASCII filenames the engine manipulates.  Timestamps are `Nat`; they
are never inspected by the engine's control flow.
-/

namespace Immigration

/-- A JavaScript string, modeled as its sequence of code points (the
filenames here are ASCII, where JavaScript's code-unit comparison and the
code-point lexicographic order coincide; Lean's `String` comparison does
not reduce in the kernel, so names are carried as `List Char`, writable as
`"name".data`). -/
abbrev JsStr := List Char

/-- `path.extname` for plain filenames: the suffix starting at the last dot,
empty when there is no dot or when the only dot is the leading character. -/
def extname (s : JsStr) : JsStr :=
  match (List.range s.length).filter
      (fun i => s.get? i = some '.') |>.getLast? with
  | none => []
  | some 0 => []
  | some i => s.drop i

/-- JavaScript string truthiness for optional string options: the empty
string behaves exactly like an absent option everywhere the engine tests
`gte ? … : …` or filters history keys. -/
def strOpt (s : JsStr) : Option JsStr :=
  if s = [] then none else some s

/-- `Array.prototype.indexOf` returning `-1` when absent. -/
def jsIndexOf (l : List JsStr) (s : JsStr) : Int :=
  match l.findIdx? (fun x => decide (x = s)) with
  | some i => (i : Int)
  | none => -1

/-- The options accepted by `Migrate.list` and `Store.history`. -/
structure ListOpts where
  count : Option Nat := none
  reverse : Bool := false
  gte : Option JsStr := none
  lte : Option JsStr := none
deriving Repr, DecidableEq

/-- Errors raised by the engine (`ImmigrationError` instances, keyed by
their message). -/
inductive MErr where
  /-- "Either `to` or `all` must be specified" -/
  | eitherToOrAll
  /-- "Migration `check` should not be less than 1" -/
  | checkTooSmall
  /-- "Migration (…) does not exist in migrations" (lister boundary);
  the payload is the boundary value, `none` printing as `undefined`. -/
  | notExist (name : Option JsStr)
  /-- "The migration (…) has not been run yet" -/
  | notRun (file : Option JsStr)
  /-- "The migration (…) cannot be found" -/
  | cannotFind (name : JsStr)
  /-- "Migration (…) is in an invalid state" -/
  | invalidState (name : JsStr)
  /-- "Migration ⟨dir⟩ is not a function: …" -/
  | notAFunction (name : JsStr)
  /-- "Migration ⟨dir⟩ failed: …": the action threw, record marked invalid. -/
  | execFailed (name : JsStr) (cause : Nat)
  /-- Re-wrapped `SafeMigrationError`: record left untouched. -/
  | safeFailed (name : JsStr) (cause : Nat)
deriving Repr, DecidableEq

/-- The directory listing filtered to the configured extension and sorted
ascending — the first two stages of `Migrate.list`. -/
def sortedFiltered (ext : JsStr) (dirFiles : List JsStr) : List JsStr :=
  List.insertionSort (· ≤ ·) (dirFiles.filter (fun f => decide (extname f = ext)))

/-- Truncation step of `Migrate.list`: `if (options.count) files =
files.slice(0, options.count)` — JavaScript number truthiness, so a count
of `0` is ignored. -/
def countTruthy (count : Option Nat) (files : List JsStr) : List JsStr :=
  match count with
  | some (n + 1) => files.take (n + 1)
  | _ => files

/-- `Migrate.list`: filter by extension, sort ascending, cut the inclusive
`gte`/`lte` window by index (`-1` meaning a missing boundary, but also the
fallback end index of an empty listing), reverse on demand, then truncate
to a truthy `count` from the front. -/
def list (ext : JsStr) (dirFiles : List JsStr) (o : ListOpts) :
    Except MErr (List JsStr) :=
  let files := sortedFiltered ext dirFiles
  let startIndex : Int :=
    match o.gte with
    | some g => jsIndexOf files g
    | none => 0
  let endIndex : Int :=
    match o.lte with
    | some t => jsIndexOf files t
    | none => (files.length : Int) - 1
  if startIndex = -1 then .error (.notExist o.gte)
  else if endIndex = -1 then .error (.notExist o.lte)
  else
    let win := (files.drop startIndex.toNat).take (endIndex + 1 - startIndex).toNat
    let win := if o.reverse then win.reverse else win
    .ok (countTruthy o.count win)

/-- An execution record as stored and yielded by the storage backend. -/
structure Execution where
  name : JsStr
  valid : Bool
  date : Nat
deriving Repr, DecidableEq

/-- The filesystem store's JSON document: an association of migration name
to `{valid, date}`, in insertion order (`Object.keys` order is irrelevant
because `history` sorts the keys). -/
abbrev StoreState := List (JsStr × Bool × Nat)

/-- The key set of a store. -/
def StoreState.keys (s : StoreState) : List JsStr := s.map (·.1)

/-- `FS_STORAGE.update`: upsert, replacing an existing entry in place or
appending a new one. -/
def upsert (s : StoreState) (k : JsStr) (v : Bool) (d : Nat) : StoreState :=
  if s.any (fun e => decide (e.1 = k)) then
    s.map (fun e => if e.1 = k then (k, v, d) else e)
  else s ++ [(k, v, d)]

/-- `FS_STORAGE.remove`: delete the entry for `k`. -/
def removeKey (s : StoreState) (k : JsStr) : StoreState :=
  s.filter (fun e => decide (e.1 ≠ k))

/-- `FS_STORAGE`'s history: keys sorted ascending, filtered by the
inclusive `gte`/`lte` bounds, mapped to executions, reversed on demand,
then `slice(0, count ?? history.length)` — unlike the lister, a count of
`0` really yields the empty sequence. -/
def fsHistory (o : ListOpts) (s : StoreState) : List Execution :=
  let keys := (List.insertionSort (· ≤ ·) s.keys).filter (fun k =>
    (match o.gte with | some g => decide (¬ k < g) | none => true) &&
    (match o.lte with | some t => decide (¬ t < k) | none => true))
  let hist := keys.filterMap (fun k =>
    (List.lookup k s).map (fun e => Execution.mk k e.1 e.2))
  let hist := if o.reverse then hist.reverse else hist
  match o.count with
  | some n => hist.take n
  | none => hist

/-- One pair step of the consistency walk, and the walk itself:
`zipLongest(allHistory, files)` over the newest-toward-target window. -/
def zipLongest : List α → List β → List (Option α × Option β)
  | [], bs => bs.map (fun b => (none, some b))
  | a :: as, [] => (some a, none) :: zipLongest as []
  | a :: as, b :: bs => (some a, some b) :: zipLongest as bs

/-- The consistency validator's loop body over the zipped
history/file window: flag a file ahead of history, a recorded migration
whose file is gone, or an invalid record, in that order. -/
def checkPairs : List (Option Execution × Option JsStr) → Except MErr Unit
  | [] => .ok ()
  | (exec?, file?) :: rest =>
    match exec? with
    | none => .error (.notRun file?)
    | some e =>
      if file?.getD [] > e.name then .error (.notRun file?)
      else if (match file? with | none => true | some f => decide (f < e.name)) then
        .error (.cannotFind e.name)
      else if !e.valid then .error (.invalidState e.name)
      else checkPairs rest

/-- One-step unfolding of the walk at an exhausted history. -/
theorem checkPairs_cons_none (f? : Option JsStr)
    (rest : List (Option Execution × Option JsStr)) :
    checkPairs ((none, f?) :: rest) = .error (.notRun f?) := rfl

/-- One-step unfolding of the walk at a present history entry. -/
theorem checkPairs_cons_some (e : Execution) (f? : Option JsStr)
    (rest : List (Option Execution × Option JsStr)) :
    checkPairs ((some e, f?) :: rest) =
      (if f?.getD [] > e.name then .error (.notRun f?)
       else if (match f? with | none => true | some f => decide (f < e.name))
         then .error (.cannotFind e.name)
       else if !e.valid then .error (.invalidState e.name)
       else checkPairs rest) := rfl

/-- Migration direction. -/
inductive Dir where
  | up
  | down
deriving Repr, DecidableEq

/-- Options of `Migrate.migrate`, with the defaults of the destructuring
`const { to = "", all = false, check = 50, dryRun = false } = options`. -/
structure MigOpts where
  tgt : JsStr := []
  all : Bool := false
  check : Nat := 50
  dryRun : Bool := false
deriving Repr, DecidableEq

/-- The post-validation candidate selection: list the window for the
direction, then drop the boundary entry — the latest executed migration in
front on "up" (`files.shift()`), the `to` target at the back on "down"
(`files.pop()`). -/
def selectFiles (dir : Dir) (tgt : JsStr) (latestName : Option JsStr)
    (ext : JsStr) (dirFiles : List JsStr) : Except MErr (List JsStr) := do
  let files ←
    if dir = .down then
      list ext dirFiles ⟨none, true, strOpt tgt, latestName.bind strOpt⟩
    else
      list ext dirFiles ⟨none, false, latestName.bind strOpt, strOpt tgt⟩
  if dir = .up then
    return if files.head? = latestName then files.drop 1 else files
  else
    return if files.getLast? = some tgt then files.dropLast else files

/-- The `if (latest)` validation block of `Migrate.migrate`'s `shouldTry`:
with no history, skip validation; otherwise list the window up to the
latest recorded name and walk it against the history, producing the latest
name on success. -/
def validateLatest (check : Nat) (gteOpt : Option JsStr) (ext : JsStr)
    (dirFiles : List JsStr) (hist : List Execution) :
    Except MErr (Option JsStr) :=
  match hist with
  | [] => pure none
  | latest :: rest =>
    Except.bind (list ext dirFiles ⟨some check, true, gteOpt, strOpt latest.name⟩)
      (fun vfiles =>
        Except.bind (checkPairs (zipLongest (latest :: rest) vfiles))
          (fun _ => pure (some latest.name)))

/-- The `shouldTry` closure of `Migrate.migrate`: load the recent history
window (newest first, bounded by `check`, from `to` up on "down"), validate
it against the file listing, then produce the candidate files — `none`
models `NO_ATTEMPT` (nothing to do, or a dry run). -/
def migratePlan (dir : Dir) (o : MigOpts) (ext : JsStr)
    (dirFiles : List JsStr) (s : StoreState) :
    Except MErr (Option (List JsStr)) := do
  let gteOpt := if dir = .down then strOpt o.tgt else none
  let hist := fsHistory ⟨some o.check, true, gteOpt, none⟩ s
  let latestName? ← validateLatest o.check gteOpt ext dirFiles hist
  let files ← selectFiles dir o.tgt latestName? ext dirFiles
  if files.isEmpty then return none
  else if o.dryRun then return none
  else return some files

/-- How a migration module behaves for a direction: no exported function
(skipped), a non-callable export, a successful action, or a throwing
action (`safe` marking a `SafeMigrationError`). -/
inductive ActionRes where
  | missing
  | notFn
  | ok
  | fail (safe : Bool) (code : Nat)
deriving Repr, DecidableEq

/-- The loaded migration modules: behavior of `require(file)[direction]`. -/
def Actions := JsStr → Dir → ActionRes

/-- Executor state: the store plus the migrations whose action was
actually invoked, in order. -/
structure RunState where
  store : StoreState
  ran : List JsStr
deriving Repr, DecidableEq

/-- The executor: run each file's action sequentially (`exec`).  Success
upserts `{valid: true}` on "up" and removes the record on "down"; a plain
failure upserts `{valid: false}` and halts; a `SafeMigrationError` halts
without touching the store; a skipped file touches nothing. -/
def runFiles (acts : Actions) (dir : Dir) (date : Nat) :
    List JsStr → RunState → RunState × Option MErr
  | [], st => (st, none)
  | f :: rest, st =>
    match acts f dir with
    | .missing => runFiles acts dir date rest st
    | .notFn => (st, some (.notAFunction f))
    | .ok =>
      let store := if dir = .up then upsert st.store f true date
                   else removeKey st.store f
      runFiles acts dir date rest ⟨store, st.ran ++ [f]⟩
    | .fail safe code =>
      let st := { st with ran := st.ran ++ [f] }
      if safe then (st, some (.safeFailed f code))
      else ({ st with store := upsert st.store f false date },
            some (.execFailed f code))

/-- `Migrate.migrate` for a single uncontended process (the storage lock is
granted immediately; `acquire`'s lock-retry behavior is verified
separately on `acquireAttempt`): option validation, the consistency check,
then the sequential execution of the selected batch.  Returns the final
store, the invoked migrations, and the result (`migrated ?? []`). -/
def migrateRun (acts : Actions) (dir : Dir) (o : MigOpts) (ext : JsStr)
    (dirFiles : List JsStr) (s : StoreState) (date : Nat) :
    RunState × Except MErr (List JsStr) :=
  if o.all = decide (o.tgt ≠ []) then (⟨s, []⟩, .error .eitherToOrAll)
  else if o.check < 1 then (⟨s, []⟩, .error .checkTooSmall)
  else
    match migratePlan dir o ext dirFiles s with
    | .error e => (⟨s, []⟩, .error e)
    | .ok none => (⟨s, []⟩, .ok [])
    | .ok (some files) =>
      match runFiles acts dir date files ⟨s, []⟩ with
      | (st, none) => (st, .ok files)
      | (st, some e) => (st, .error e)

/-! ## The lock coordinator (`Migrate.acquire`) -/

/-- Result of one evaluation of the `shouldTry` argument: signal no work
(`NO_ATTEMPT`), produce the argument for `fn`, or throw. -/
inductive TryRes (V : Type) where
  | noAttempt
  | arg (v : V)
  | err (e : Nat)
deriving Repr, DecidableEq

/-- Result of one `storage.lock()` call: success, a retryable
`LockRetryError`, or a fatal error. -/
inductive LockRes where
  | ok
  | busy
  | fatal (e : Nat)
deriving Repr, DecidableEq

/-- Errors `acquire` can reject with. -/
inductive AcqErr where
  | tryErr (e : Nat)
  | busy
  | fatal (e : Nat)
  | fnErr (e : Nat)
deriving Repr, DecidableEq

/-- Environment of one `acquire` invocation: the outcome of the `k`-th
`shouldTry` evaluation and `lock()` call, the work function, and the
elapsed `now() - start` observed when the `k`-th lock attempt fails. -/
structure AcqEnv (V T : Type) where
  shouldTry : Nat → TryRes V
  lockRes : Nat → LockRes
  fn : V → Except Nat T
  durationAt : Nat → Nat

/-- Observable events of an `acquire` run, in order. -/
inductive AcqEvent where
  | tryEval (k : Nat)
  | lockOk
  | lockFail
  /-- the `"wait"` notification `(count + 1, duration, maxWait)` -/
  | waited (attempt duration maxW : Nat)
  /-- the `setTimeout(…, retryWait)` sleep -/
  | slept (ms : Nat)
  | fnCall
  | unlocked
deriving Repr, DecidableEq

/-- Outcome of an `acquire` run: a resolved value (`none` models
`undefined` from `NO_ATTEMPT`), a rejection, or exhaustion of the
modelling fuel (the real recursion is bounded only by `maxWait`). -/
inductive AcqOutcome (T : Type) where
  | value (t : Option T)
  | raised (e : AcqErr)
  | fuelOut
deriving Repr, DecidableEq

/-- `acquire` options with their defaults (`maxWait ?? 600_000`,
`retryWait ?? 500`). -/
structure AcqOpts where
  maxWait : Option Nat := none
  retryWait : Option Nat := none
deriving Repr, DecidableEq

/-- The recursive `attempt(count)` of `Migrate.acquire`: re-evaluate
`shouldTry` from scratch; on `NO_ATTEMPT` resolve `undefined` without
touching the lock; otherwise `lock()` — on success run `fn` inside
`try … finally unlock()`; on a `LockRetryError` within `maxWait` emit the
`"wait"` notification, sleep `retryWait` and recurse; otherwise reject. -/
def acquireAttempt (env : AcqEnv V T) (maxWait retryWait : Nat) :
    Nat → Nat → List AcqEvent × AcqOutcome T
  | fuel, count =>
    match env.shouldTry count with
    | .err e => ([.tryEval count], .raised (.tryErr e))
    | .noAttempt => ([.tryEval count], .value none)
    | .arg v =>
      match env.lockRes count with
      | .ok =>
        ([.tryEval count, .lockOk, .fnCall, .unlocked],
         match env.fn v with
         | .ok t => .value (some t)
         | .error e => .raised (.fnErr e))
      | .fatal e => ([.tryEval count, .lockFail], .raised (.fatal e))
      | .busy =>
        if env.durationAt count < maxWait then
          match fuel with
          | 0 => ([.tryEval count, .lockFail], .fuelOut)
          | fuel + 1 =>
            let next := acquireAttempt env maxWait retryWait fuel (count + 1)
            ([.tryEval count, .lockFail,
              .waited (count + 1) (env.durationAt count) maxWait,
              .slept retryWait] ++ next.1, next.2)
        else ([.tryEval count, .lockFail], .raised .busy)

/-- `Migrate.acquire`: apply the option defaults and start at attempt 0. -/
def acquireRun (env : AcqEnv V T) (o : AcqOpts) (fuel : Nat) :
    List AcqEvent × AcqOutcome T :=
  acquireAttempt env (o.maxWait.getD 600000) (o.retryWait.getD 500) fuel 0

/-- The outcome `acquire` propagates for the work function's result:
`fn`'s value when it resolves, `fn`'s rejection when it throws. -/
def fnOutcome (r : Except Nat T) : AcqOutcome T :=
  match r with
  | .ok t => .value (some t)
  | .error e => .raised (.fnErr e)

/-! ## Sorted-window lemmas for the lister -/

theorem sortedFiltered_sorted (ext : JsStr) (l : List JsStr) :
    List.Sorted (· ≤ ·) (sortedFiltered ext l) :=
  List.sorted_insertionSort _ _

theorem sortedFiltered_perm (ext : JsStr) (l : List JsStr) :
    List.Perm (sortedFiltered ext l) (l.filter (fun f => decide (extname f = ext))) :=
  List.perm_insertionSort _ _

theorem sortedFiltered_nodup (ext : JsStr) {l : List JsStr} (h : l.Nodup) :
    (sortedFiltered ext l).Nodup :=
  (sortedFiltered_perm ext l).nodup_iff.mpr (h.filter _)

theorem sortedFiltered_strict (ext : JsStr) {l : List JsStr} (h : l.Nodup) :
    (sortedFiltered ext l).Pairwise (· < ·) :=
  (sortedFiltered_sorted ext l).lt_of_le (sortedFiltered_nodup ext h)

theorem sortedFiltered_sub (ext : JsStr) (l : List JsStr) :
    ∀ x ∈ sortedFiltered ext l, x ∈ l := fun _x hx =>
  List.mem_of_mem_filter ((sortedFiltered_perm ext l).mem_iff.mp hx)

/-- The element found by `findIdx?` for `(· = g)` is a member. -/
theorem mem_of_findIdx?_eq {l : List JsStr} {g : JsStr} {i : Nat}
    (h : l.findIdx? (fun x => decide (x = g)) = some i) : g ∈ l := by
  induction l generalizing i with
  | nil => simp at h
  | cons a l ih =>
    rw [List.findIdx?_cons] at h
    by_cases ha : a = g
    · exact ha ▸ List.mem_cons_self a l
    · rw [if_neg (by simpa using ha), List.findIdx?_succ] at h
      cases hfi : l.findIdx? (fun x => decide (x = g)) with
      | none => rw [hfi] at h; simp at h
      | some j => exact List.mem_cons_of_mem a (ih hfi)

/-- On a strictly ascending list, taking through the index of `t` is
filtering by `· ≤ t`. -/
theorem take_succ_findIdx_eq_filter {l : List JsStr}
    (hs : l.Pairwise (· < ·)) {t : JsStr} {j : Nat}
    (hj : l.findIdx? (fun x => decide (x = t)) = some j) :
    l.take (j + 1) = l.filter (fun x => decide (x ≤ t)) := by
  induction l generalizing j with
  | nil => simp at hj
  | cons a l ih =>
    have hlt : ∀ x ∈ l, a < x := fun x hx => (List.pairwise_cons.mp hs).1 x hx
    rw [List.findIdx?_cons] at hj
    by_cases ha : a = t
    · subst ha
      rw [if_pos (by simp)] at hj
      obtain rfl : (0 : Nat) = j := by simpa using hj
      have hnil : l.filter (fun x => decide (x ≤ a)) = [] :=
        List.filter_eq_nil_iff.mpr fun x hx => by
          rw [decide_eq_false (not_le_of_lt (hlt x hx))]
          simp
      rw [List.filter_cons_of_pos (by simp), hnil]
      rfl
    · rw [if_neg (by simpa using ha), List.findIdx?_succ] at hj
      cases hfi : l.findIdx? (fun x => decide (x = t)) with
      | none => rw [hfi] at hj; simp at hj
      | some j' =>
        rw [hfi] at hj
        obtain rfl : j' + 1 = j := by simpa using hj
        have hat : a ≤ t := le_of_lt (hlt t (mem_of_findIdx?_eq hfi))
        rw [List.take_succ_cons, List.filter_cons_of_pos (by simpa using hat),
          ih (List.Pairwise.of_cons hs) hfi]

/-- On a strictly ascending list, dropping to the index of `g` is
filtering by `g ≤ ·`. -/
theorem drop_findIdx_eq_filter {l : List JsStr}
    (hs : l.Pairwise (· < ·)) {g : JsStr} {i : Nat}
    (hi : l.findIdx? (fun x => decide (x = g)) = some i) :
    l.drop i = l.filter (fun x => decide (g ≤ x)) := by
  induction l generalizing i with
  | nil => simp at hi
  | cons a l ih =>
    have hlt : ∀ x ∈ l, a < x := fun x hx => (List.pairwise_cons.mp hs).1 x hx
    rw [List.findIdx?_cons] at hi
    by_cases ha : a = g
    · subst ha
      rw [if_pos (by simp)] at hi
      obtain rfl : (0 : Nat) = i := by simpa using hi
      rw [List.drop_zero, List.filter_cons_of_pos (by simp),
        List.filter_eq_self.mpr fun x hx => by simpa using le_of_lt (hlt x hx)]
    · rw [if_neg (by simpa using ha), List.findIdx?_succ] at hi
      cases hfi : l.findIdx? (fun x => decide (x = g)) with
      | none => rw [hfi] at hi; simp at hi
      | some i' =>
        rw [hfi] at hi
        obtain rfl : i' + 1 = i := by simpa using hi
        have hag : a < g := hlt g (mem_of_findIdx?_eq hfi)
        rw [List.drop_succ_cons, List.filter_cons_of_neg (by simpa using not_le_of_lt hag),
          ih (List.Pairwise.of_cons hs) hfi]

/-- On a strictly ascending list, the inclusive index window from `g` to
`t` is filtering by `g ≤ · ≤ t`. -/
theorem slice_eq_filter {l : List JsStr}
    (hs : l.Pairwise (· < ·)) {g t : JsStr} {i j : Nat}
    (hi : l.findIdx? (fun x => decide (x = g)) = some i)
    (hj : l.findIdx? (fun x => decide (x = t)) = some j) :
    (l.drop i).take (j + 1 - i)
      = l.filter (fun x => decide (g ≤ x) && decide (x ≤ t)) := by
  induction l generalizing i j with
  | nil => simp at hi
  | cons a l ih =>
    have hlt : ∀ x ∈ l, a < x := fun x hx => (List.pairwise_cons.mp hs).1 x hx
    rw [List.findIdx?_cons] at hi hj
    by_cases hag : a = g
    · rw [if_pos (by simpa using hag)] at hi
      obtain rfl : (0 : Nat) = i := by simpa using hi
      subst hag
      by_cases hat : a = t
      · rw [if_pos (by simpa using hat)] at hj
        obtain rfl : (0 : Nat) = j := by simpa using hj
        subst hat
        have hnil : l.filter (fun x => decide (a ≤ x) && decide (x ≤ a)) = [] :=
          List.filter_eq_nil_iff.mpr fun x hx => by
            rw [decide_eq_false (not_le_of_lt (hlt x hx))]
            simp
        rw [List.drop_zero, List.filter_cons_of_pos (by simp), hnil]
        rfl
      · rw [if_neg (by simpa using hat), List.findIdx?_succ] at hj
        cases hfj : l.findIdx? (fun x => decide (x = t)) with
        | none => rw [hfj] at hj; simp at hj
        | some j' =>
          rw [hfj] at hj
          obtain rfl : j' + 1 = j := by simpa using hj
          have hatle : a ≤ t := le_of_lt (hlt t (mem_of_findIdx?_eq hfj))
          have hcg : l.filter (fun x => decide (a ≤ x) && decide (x ≤ t))
              = l.filter (fun x => decide (x ≤ t)) :=
            List.filter_congr fun x hx => by
              rw [decide_eq_true (le_of_lt (hlt x hx)), Bool.true_and]
          rw [List.drop_zero, Nat.sub_zero, List.take_succ_cons,
            List.filter_cons_of_pos (by simp [hatle]),
            take_succ_findIdx_eq_filter (List.Pairwise.of_cons hs) hfj, hcg]
    · rw [if_neg (by simpa using hag), List.findIdx?_succ] at hi
      cases hfi : l.findIdx? (fun x => decide (x = g)) with
      | none => rw [hfi] at hi; simp at hi
      | some i' =>
        rw [hfi] at hi
        obtain rfl : i' + 1 = i := by simpa using hi
        have halg : a < g := hlt g (mem_of_findIdx?_eq hfi)
        have hcons : (a :: l).filter (fun x => decide (g ≤ x) && decide (x ≤ t))
            = l.filter (fun x => decide (g ≤ x) && decide (x ≤ t)) :=
          List.filter_cons_of_neg (by simp [not_le_of_lt halg])
        by_cases hat : a = t
        · rw [if_pos (by simpa using hat)] at hj
          obtain rfl : (0 : Nat) = j := by simpa using hj
          subst hat
          have hnil : l.filter (fun x => decide (g ≤ x) && decide (x ≤ a)) = [] :=
            List.filter_eq_nil_iff.mpr fun x hx => by
              rw [decide_eq_false (not_le_of_lt (hlt x hx))]
              simp
          rw [List.drop_succ_cons, hcons, hnil,
            show 0 + 1 - (i' + 1) = 0 from by omega]
          exact List.take_zero _
        · rw [if_neg (by simpa using hat), List.findIdx?_succ] at hj
          cases hfj : l.findIdx? (fun x => decide (x = t)) with
          | none => rw [hfj] at hj; simp at hj
          | some j' =>
            rw [hfj] at hj
            obtain rfl : j' + 1 = j := by simpa using hj
            rw [List.drop_succ_cons, hcons,
              show j' + 1 + 1 - (i' + 1) = j' + 1 - i' from by omega]
            exact ih (List.Pairwise.of_cons hs) hfi hfj

/-! ## Claim theorems -/

/-- **C1.** In every `Migrate.acquire` run in which `storage.lock()`
succeeds, `storage.unlock()` is called exactly once before `acquire`
returns or rethrows: some attempt `k` had pending work and a successful
lock, the trace ends with the lock, the work call, and the single unlock,
and the outcome is exactly the work function's result — its value when it
resolves, its rethrown error when it throws. -/
theorem acquire_unlock_exactly_once {V T : Type} (env : AcqEnv V T)
    (mW rW fuel count : Nat)
    (h : AcqEvent.lockOk ∈ (acquireAttempt env mW rW fuel count).1) :
    (acquireAttempt env mW rW fuel count).1.count AcqEvent.unlocked = 1 ∧
    ∃ fore k v, (acquireAttempt env mW rW fuel count).1
        = fore ++ [AcqEvent.tryEval k, .lockOk, .fnCall, .unlocked] ∧
      env.shouldTry k = .arg v ∧ env.lockRes k = .ok ∧
      (acquireAttempt env mW rW fuel count).2 = fnOutcome (env.fn v) := by
  induction fuel generalizing count with
  | zero =>
    rw [acquireAttempt] at h ⊢
    cases hTry : env.shouldTry count with
    | err e => simp [hTry] at h
    | noAttempt => simp [hTry] at h
    | arg v =>
      cases hLock : env.lockRes count with
      | ok =>
        refine ⟨by simp [hTry, hLock], [], count, v, ?_, hTry, hLock, ?_⟩
        · simp [hTry, hLock]
        · simp only [hTry, hLock]
          cases env.fn v <;> rfl
      | busy =>
        by_cases hd : env.durationAt count < mW <;> simp [hTry, hLock, hd] at h
      | fatal e => simp [hTry, hLock] at h
  | succ n ih =>
    rw [acquireAttempt] at h ⊢
    cases hTry : env.shouldTry count with
    | err e => simp [hTry] at h
    | noAttempt => simp [hTry] at h
    | arg v =>
      cases hLock : env.lockRes count with
      | ok =>
        refine ⟨by simp [hTry, hLock], [], count, v, ?_, hTry, hLock, ?_⟩
        · simp [hTry, hLock]
        · simp only [hTry, hLock]
          cases env.fn v <;> rfl
      | busy =>
        by_cases hd : env.durationAt count < mW
        · simp only [hTry, hLock, hd, if_true] at h ⊢
          have h' : AcqEvent.lockOk ∈ (acquireAttempt env mW rW n (count + 1)).1 := by
            simpa using h
          obtain ⟨hcnt, fore, k, v', heq, htry', hlock', hout⟩ := ih (count + 1) h'
          refine ⟨by simp [List.count_append, hcnt], ?_⟩
          exact ⟨[AcqEvent.tryEval count, .lockFail,
              .waited (count + 1) (env.durationAt count) mW, .slept rW] ++ fore,
            k, v', by simp [heq], htry', hlock', hout⟩
        · simp [hTry, hLock, hd] at h
      | fatal e => simp [hTry, hLock] at h

/-- Witness for C1: a concrete run whose lock succeeds immediately. -/
def envC1 : AcqEnv Nat Nat :=
  ⟨fun _ => .arg 7, fun _ => .ok, fun v => .ok (v + 1), fun _ => 0⟩

/-- C1 at a concrete input: the hypothesis (the lock succeeded) holds and
the unlock is observed exactly once with `fn`'s result propagated. -/
theorem acquire_unlock_exactly_once_witness :
    (acquireAttempt envC1 600000 500 1 0).1.count AcqEvent.unlocked = 1 ∧
    ∃ fore k v, (acquireAttempt envC1 600000 500 1 0).1
        = fore ++ [AcqEvent.tryEval k, .lockOk, .fnCall, .unlocked] ∧
      envC1.shouldTry k = .arg v ∧ envC1.lockRes k = .ok ∧
      (acquireAttempt envC1 600000 500 1 0).2 = fnOutcome (envC1.fn v) :=
  acquire_unlock_exactly_once envC1 600000 500 1 0 (by rw [acquireAttempt]; decide)

/-- **C4.** In `Migrate.acquire` with pending work at attempt `count`:
when `lock()` fails with a `LockRetryError` and the elapsed time is under
`maxWait` (default `600000` ms), a `"wait"` notification carrying the
attempt count is emitted, the coordinator sleeps `retryWait` (default
`500` ms), and the next attempt re-evaluates `shouldTry` from scratch —
returning without any lock call when the work is gone; when `maxWait` is
exceeded the `LockRetryError` propagates, and a non-retryable lock error
always propagates. -/
theorem acquire_busy_retry {V T : Type} (env : AcqEnv V T) (o : AcqOpts)
    (fuel count : Nat) (v : V)
    (ht : env.shouldTry count = .arg v) :
    (env.lockRes count = .busy →
      env.durationAt count < o.maxWait.getD 600000 →
      acquireAttempt env (o.maxWait.getD 600000) (o.retryWait.getD 500)
          (fuel + 1) count =
        (([.tryEval count, .lockFail,
           .waited (count + 1) (env.durationAt count) (o.maxWait.getD 600000),
           .slept (o.retryWait.getD 500)] : List AcqEvent) ++
           (acquireAttempt env (o.maxWait.getD 600000) (o.retryWait.getD 500)
             fuel (count + 1)).1,
         (acquireAttempt env (o.maxWait.getD 600000) (o.retryWait.getD 500)
           fuel (count + 1)).2)) ∧
    (env.shouldTry (count + 1) = .noAttempt →
      acquireAttempt env (o.maxWait.getD 600000) (o.retryWait.getD 500)
          fuel (count + 1) =
        ([.tryEval (count + 1)], .value none)) ∧
    (env.lockRes count = .busy →
      ¬ env.durationAt count < o.maxWait.getD 600000 →
      acquireAttempt env (o.maxWait.getD 600000) (o.retryWait.getD 500)
          (fuel + 1) count =
        ([.tryEval count, .lockFail], .raised .busy)) ∧
    (∀ e, env.lockRes count = .fatal e →
      acquireAttempt env (o.maxWait.getD 600000) (o.retryWait.getD 500)
          (fuel + 1) count =
        ([.tryEval count, .lockFail], .raised (.fatal e))) := by
  refine ⟨fun hb hd => ?_, fun hn => ?_, fun hb hd => ?_, fun e hf => ?_⟩
  · rw [acquireAttempt]
    simp [ht, hb, hd]
  · cases fuel with
    | zero => rw [acquireAttempt]; simp [hn]
    | succ m => rw [acquireAttempt]; simp [hn]
  · rw [acquireAttempt]
    simp [ht, hb, hd]
  · rw [acquireAttempt]
    simp [ht, hf]

/-- Environment for the C4 witness: lock busy at attempt 0 within
`maxWait`, then no work at attempt 1. -/
def envC4 : AcqEnv Nat Nat :=
  ⟨fun k => if k = 0 then .arg 3 else .noAttempt,
   fun _ => .busy, fun v => .ok v, fun _ => 17⟩

/-- C4 at a concrete input, all hypotheses discharged. -/
theorem acquire_busy_retry_witness :
    acquireAttempt envC4 600000 500 1 0 =
      (([.tryEval 0, .lockFail, .waited 1 17 600000,
         .slept 500] : List AcqEvent) ++
         (acquireAttempt envC4 600000 500 0 1).1,
       (acquireAttempt envC4 600000 500 0 1).2) ∧
    acquireAttempt envC4 600000 500 0 1 = ([.tryEval 1], .value none) := by
  have h := acquire_busy_retry envC4 {} 0 0 3 (by decide)
  exact ⟨h.1 (by decide) (by decide), h.2.1 (by decide)⟩

/-- Window membership predicate of the lister specification: inside the
inclusive `gte`/`lte` bounds (an absent bound excludes nothing). -/
def inWindow (o : ListOpts) (x : JsStr) : Bool :=
  (match o.gte with | some g => decide (g ≤ x) | none => true) &&
  (match o.lte with | some t => decide (x ≤ t) | none => true)

/-- **C6 (counterexample).** On an empty (filtered) file set with no `lte`
boundary given, `Migrate.list` does not return the empty sequence as the
claim implies: the fallback end index `files.length - 1 = -1` is
indistinguishable from a missing boundary, so it fails with the
"does not exist" error. -/
theorem list_empty_dir_counterexample :
    list ".js".data [] {} = .error (.notExist none) ∧
    Except.error (MErr.notExist none) ≠
      (Except.ok [] : Except MErr (List JsStr)) :=
  ⟨rfl, fun h => Except.noConfusion h⟩

/-- **C6 (amended).** `Migrate.list` filters filenames to the configured
extension, sorts them ascending, takes the inclusive window from `gte` to
`lte`, reverses it when `reverse` is set, and truncates to a truthy
`count` from the front of the possibly reversed sequence; it fails with
the "does not exist" error when a given `gte` or `lte` boundary is absent
from the filtered file set — and likewise when no `lte` is given and the
filtered file set is empty. -/
theorem list_spec (ext : JsStr) (dirFiles : List JsStr) (o : ListOpts)
    (hnd : dirFiles.Nodup) :
    (∀ g, o.gte = some g → g ∉ sortedFiltered ext dirFiles →
      list ext dirFiles o = .error (.notExist (some g))) ∧
    (∀ t, o.lte = some t → t ∉ sortedFiltered ext dirFiles →
      (∀ g, o.gte = some g → g ∈ sortedFiltered ext dirFiles) →
      list ext dirFiles o = .error (.notExist (some t))) ∧
    (o.gte = none → o.lte = none → sortedFiltered ext dirFiles = [] →
      list ext dirFiles o = .error (.notExist none)) ∧
    ((∀ g, o.gte = some g → g ∈ sortedFiltered ext dirFiles) →
      (∀ t, o.lte = some t → t ∈ sortedFiltered ext dirFiles) →
      (o.lte = none → sortedFiltered ext dirFiles ≠ []) →
      list ext dirFiles o = .ok (countTruthy o.count
        (if o.reverse then
          ((sortedFiltered ext dirFiles).filter (inWindow o)).reverse
        else (sortedFiltered ext dirFiles).filter (inWindow o)))) := by
  have hstrict := sortedFiltered_strict ext hnd
  obtain ⟨cnt, rev, gte?, lte?⟩ := o
  have habsent : ∀ g : JsStr, g ∉ sortedFiltered ext dirFiles →
      (sortedFiltered ext dirFiles).findIdx? (fun x => decide (x = g)) = none :=
    fun g hg => List.findIdx?_eq_none_iff.mpr fun x hx => by
      simp only [decide_eq_false_iff_not]
      rintro rfl
      exact hg hx
  refine ⟨?_, ?_, ?_, ?_⟩
  · intro g hg hnm
    obtain rfl : gte? = some g := hg
    simp only [list, jsIndexOf, habsent g hnm]
    simp
  · intro t ht hnm hgte
    obtain rfl : lte? = some t := ht
    cases gte? with
    | none =>
      simp only [list, jsIndexOf, habsent t hnm]
      simp
    | some g =>
      have hgm := hgte g rfl
      have hi : (sortedFiltered ext dirFiles).findIdx? (fun x => decide (x = g))
          = some ((sortedFiltered ext dirFiles).findIdx (fun x => decide (x = g))) :=
        List.findIdx?_eq_some_of_exists ⟨g, hgm, by simp⟩
      simp only [list, jsIndexOf, hi, habsent t hnm]
      split
      next h => exact absurd h (by omega)
      next => simp
  · intro hg ht hemp
    obtain rfl : gte? = none := hg
    obtain rfl : lte? = none := ht
    simp only [list, jsIndexOf, hemp]
    simp
  · intro hgte hlte hne
    cases gte? with
    | some g =>
      have hgm := hgte g rfl
      have hi : (sortedFiltered ext dirFiles).findIdx? (fun x => decide (x = g))
          = some ((sortedFiltered ext dirFiles).findIdx (fun x => decide (x = g))) :=
        List.findIdx?_eq_some_of_exists ⟨g, hgm, by simp⟩
      cases lte? with
      | some t =>
        have htm := hlte t rfl
        have hj : (sortedFiltered ext dirFiles).findIdx? (fun x => decide (x = t))
            = some ((sortedFiltered ext dirFiles).findIdx (fun x => decide (x = t))) :=
          List.findIdx?_eq_some_of_exists ⟨t, htm, by simp⟩
        simp only [list, jsIndexOf, hi, hj, Int.toNat_natCast]
        split
        next h => exact absurd h (by omega)
        next =>
          split
          next h => exact absurd h (by omega)
          next =>
            have harith :
                ((((sortedFiltered ext dirFiles).findIdx
                    (fun x => decide (x = t)) : Int) + 1 -
                  ((sortedFiltered ext dirFiles).findIdx
                    (fun x => decide (x = g)) : Int)).toNat)
                = (sortedFiltered ext dirFiles).findIdx
                    (fun x => decide (x = t)) + 1
                  - (sortedFiltered ext dirFiles).findIdx
                    (fun x => decide (x = g)) := by
              omega
            rw [harith, slice_eq_filter hstrict hi hj]
            rfl
      | none =>
        have hlen : 0 < (sortedFiltered ext dirFiles).length :=
          List.length_pos.mpr (hne rfl)
        simp only [list, jsIndexOf, hi, Int.toNat_natCast]
        split
        next h => exact absurd h (by omega)
        next =>
          split
          next h => exact absurd h (by omega)
          next =>
            have harith :
                ((((sortedFiltered ext dirFiles).length : Int) - 1 + 1 -
                  ((sortedFiltered ext dirFiles).findIdx
                    (fun x => decide (x = g)) : Int)).toNat)
                = (sortedFiltered ext dirFiles).length
                  - (sortedFiltered ext dirFiles).findIdx
                    (fun x => decide (x = g)) := by
              omega
            have hflt : (sortedFiltered ext dirFiles).filter
                  (fun x => decide (g ≤ x))
                = (sortedFiltered ext dirFiles).filter
                  (inWindow ⟨cnt, rev, some g, none⟩) :=
              List.filter_congr fun x _ => by simp [inWindow]
            rw [harith, List.take_of_length_le (by rw [List.length_drop]),
              drop_findIdx_eq_filter hstrict hi, hflt]
    | none =>
      cases lte? with
      | some t =>
        have htm := hlte t rfl
        have hj : (sortedFiltered ext dirFiles).findIdx? (fun x => decide (x = t))
            = some ((sortedFiltered ext dirFiles).findIdx (fun x => decide (x = t))) :=
          List.findIdx?_eq_some_of_exists ⟨t, htm, by simp⟩
        simp only [list, jsIndexOf, hj]
        split
        next h => exact absurd h (by decide)
        next =>
          split
          next h => exact absurd h (by omega)
          next =>
            have harith :
                ((((sortedFiltered ext dirFiles).findIdx
                    (fun x => decide (x = t)) : Int) + 1 - (0 : Int)).toNat)
                = (sortedFiltered ext dirFiles).findIdx
                    (fun x => decide (x = t)) + 1 := by
              omega
            rw [show ((0 : Int).toNat) = 0 from rfl, harith, List.drop_zero,
              take_succ_findIdx_eq_filter hstrict hj]
            rfl
      | none =>
        have hlen : 0 < (sortedFiltered ext dirFiles).length :=
          List.length_pos.mpr (hne rfl)
        simp only [list, jsIndexOf]
        split
        next h => exact absurd h (by decide)
        next =>
          split
          next h => exact absurd h (by omega)
          next =>
            have harith :
                ((((sortedFiltered ext dirFiles).length : Int) - 1 + 1 -
                  (0 : Int)).toNat)
                = (sortedFiltered ext dirFiles).length := by
              omega
            rw [show ((0 : Int).toNat) = 0 from rfl, harith, List.drop_zero,
              List.take_length,
              List.filter_eq_self.mpr (fun x _ => by simp [inWindow])]

/-- Witness for C6 (amended), instantiated on the repository's own test
directory: both a missing-boundary error and a reversed, truncated
window. -/
theorem list_spec_witness :
    list ".js".data ["2_test.js".data, "1_test.js".data]
        {gte := some "0_test.js".data}
      = .error (.notExist (some "0_test.js".data)) ∧
    list ".js".data ["2_test.js".data, "1_test.js".data]
        {count := some 1, reverse := true, gte := some "1_test.js".data,
          lte := some "2_test.js".data}
      = .ok ["2_test.js".data] := by
  have h1 := (list_spec ".js".data ["2_test.js".data, "1_test.js".data]
    {gte := some "0_test.js".data} (by decide)).1 "0_test.js".data rfl
    (by decide)
  have h2 := ((list_spec ".js".data ["2_test.js".data, "1_test.js".data]
    {count := some 1, reverse := true, gte := some "1_test.js".data,
      lte := some "2_test.js".data} (by decide)).2.2.2
    (by intro g hg; cases hg; decide)
    (by intro t ht; cases ht; decide)
    (by intro h; cases h))
  exact ⟨h1, h2.trans (congrArg Except.ok (by decide))⟩

/-- **C10.** A `count` of `0` is ignored by `Migrate.list` (the whole
windowed sequence is produced), while `FS_STORAGE`'s `history` with
`count = 0` yields the empty sequence; for every positive `count` both
truncate to the first `count` entries of the (possibly reversed)
sequence. -/
theorem count_zero_semantics (ext : JsStr) (dirFiles : List JsStr)
    (o : ListOpts) (s : StoreState) :
    list ext dirFiles { o with count := some 0 } =
      list ext dirFiles { o with count := none } ∧
    fsHistory { o with count := some 0 } s = [] ∧
    (∀ n : Nat, 0 < n →
      list ext dirFiles { o with count := some n } =
        (list ext dirFiles { o with count := none }).map (fun l => l.take n) ∧
      fsHistory { o with count := some n } s =
        (fsHistory { o with count := none } s).take n) := by
  refine ⟨?_, ?_, fun n hn => ⟨?_, ?_⟩⟩
  · rw [list, list]
    split
    · rfl
    · split
      · rfl
      · rfl
  · simp [fsHistory]
  · rw [list, list]
    split
    · rfl
    · split
      · rfl
      · cases n with
        | zero => exact absurd hn (Nat.lt_irrefl 0)
        | succ m => rfl
  · simp [fsHistory]

/-- Witness for C10's positive-count part at a concrete input. -/
theorem count_zero_semantics_witness :
    list ".js".data ["1_test.js".data, "2_test.js".data] {count := some 1}
      = (list ".js".data ["1_test.js".data, "2_test.js".data] {}).map
          (fun l => l.take 1) ∧
    fsHistory {count := some 0} [("1_test.js".data, true, 0)] = [] := by
  have h := count_zero_semantics ".js".data
    ["1_test.js".data, "2_test.js".data] {} [("1_test.js".data, true, 0)]
  exact ⟨(h.2.2 1 (by decide)).1, h.2.1⟩

/-! ## Executor lemmas -/

/-- Running a prefix of migrations whose actions all succeed, upward:
every record is appended `{valid: true}` and every action runs once, in
order. -/
theorem runFiles_up_ok (acts : Actions) (date : Nat) :
    ∀ (l : List JsStr) (st : RunState), (∀ f ∈ l, acts f .up = .ok) →
    (∀ f ∈ l, f ∉ st.store.keys) → l.Nodup →
    runFiles acts .up date l st =
      (⟨st.store ++ l.map (fun f => (f, true, date)), st.ran ++ l⟩, none) := by
  intro l
  induction l with
  | nil => intro st _ _ _; simp [runFiles]
  | cons f rest ih =>
    intro st hok hfresh hnd
    have hno : ¬ (st.store.any (fun e => decide (e.1 = f)) = true) := by
      simp only [List.any_eq_true, decide_eq_true_eq]
      rintro ⟨e, he, hef⟩
      exact hfresh f (List.mem_cons_self f rest) (List.mem_map.mpr ⟨e, he, hef⟩)
    have hup : upsert st.store f true date = st.store ++ [(f, true, date)] := by
      unfold upsert
      rw [if_neg hno]
    rw [runFiles, hok f (List.mem_cons_self f rest)]
    simp only [hup, if_true]
    rw [ih ⟨st.store ++ [(f, true, date)], st.ran ++ [f]⟩
      (fun g hg => hok g (List.mem_cons_of_mem f hg))
      (fun g hg => by
        simp only [StoreState.keys, List.map_append, List.mem_append]
        rintro (hin | hone)
        · exact hfresh g (List.mem_cons_of_mem f hg) hin
        · have : g = f := by simpa using hone
          exact (List.nodup_cons.mp hnd).1 (this ▸ hg))
      (List.nodup_cons.mp hnd).2]
    simp

/-- Running `fore ++ f :: post` where every migration in `fore` succeeds
and `f`'s action throws: the batch halts at `f`. -/
theorem runFiles_fail_at (acts : Actions) (dir : Dir) (date : Nat)
    (f : JsStr) (post : List JsStr) (safe : Bool) (code : Nat)
    (hf : acts f dir = .fail safe code) :
    ∀ (fore : List JsStr) (st : RunState), (∀ g ∈ fore, acts g dir = .ok) →
    runFiles acts dir date (fore ++ f :: post) st =
      (⟨if safe then (runFiles acts dir date fore st).1.store
        else upsert (runFiles acts dir date fore st).1.store f false date,
        st.ran ++ fore ++ [f]⟩,
       some (if safe then MErr.safeFailed f code
             else MErr.execFailed f code)) := by
  intro fore
  induction fore with
  | nil =>
    intro st _
    simp only [List.nil_append, runFiles, hf]
    cases safe <;> simp [runFiles]
  | cons g rest ih =>
    intro st hok
    have hg := hok g (List.mem_cons_self g rest)
    have hstep : runFiles acts dir date (g :: rest) st
        = runFiles acts dir date rest
          ⟨if dir = Dir.up then upsert st.store g true date
            else removeKey st.store g, st.ran ++ [g]⟩ := by
      rw [runFiles]
      simp only [hg]
    have hstep2 : runFiles acts dir date ((g :: rest) ++ f :: post) st
        = runFiles acts dir date (rest ++ f :: post)
          ⟨if dir = Dir.up then upsert st.store g true date
            else removeKey st.store g, st.ran ++ [g]⟩ := by
      rw [List.cons_append, runFiles]
      simp only [hg]
    rw [hstep2, hstep,
      ih _ (fun x hx => hok x (List.mem_cons_of_mem g hx))]
    simp

/-- `lookup` through the in-place replacement of key `f` is unchanged for
other keys. -/
theorem lookup_map_upsert (f g : JsStr) (v : Bool) (d : Nat)
    (hbf : (g == f) = false) :
    ∀ S : StoreState,
      List.lookup g (S.map (fun e => if e.1 = f then (f, v, d) else e))
        = List.lookup g S := by
  intro S
  induction S with
  | nil => rfl
  | cons e S' ih =>
    obtain ⟨k, v', d'⟩ := e
    by_cases hk : k = f
    · subst hk
      have hm : (if ((k, v', d') : JsStr × Bool × Nat).1 = k
          then (k, v, d) else (k, v', d')) = (k, v, d) := if_pos rfl
      rw [List.map_cons, hm, List.lookup_cons, List.lookup_cons, hbf]
      exact ih
    · have hm : (if ((k, v', d') : JsStr × Bool × Nat).1 = f
          then (f, v, d) else (k, v', d')) = (k, v', d') := if_neg hk
      rw [List.map_cons, hm, List.lookup_cons, List.lookup_cons]
      cases hbe : g == k
      · exact ih
      · rfl

/-- `lookup` through appending a fresh entry for key `f` is unchanged for
other keys. -/
theorem lookup_append_missing (f g : JsStr) (v : Bool) (d : Nat)
    (hbf : (g == f) = false) :
    ∀ S : StoreState, List.lookup g (S ++ [(f, v, d)]) = List.lookup g S := by
  intro S
  induction S with
  | nil =>
    rw [List.nil_append, List.lookup_cons, hbf]
  | cons e S' ih =>
    obtain ⟨k, v', d'⟩ := e
    rw [List.cons_append, List.lookup_cons, List.lookup_cons]
    cases hbe : g == k
    · exact ih
    · rfl

/-- `FS_STORAGE.update` of one key leaves every other key's entry
unchanged. -/
theorem lookup_upsert_ne (f g : JsStr) (v : Bool) (d : Nat) (hgf : g ≠ f)
    (S : StoreState) :
    List.lookup g (upsert S f v d) = List.lookup g S := by
  have hbf : (g == f) = false := by simpa using hgf
  unfold upsert
  split
  · exact lookup_map_upsert f g v d hbf S
  · exact lookup_append_missing f g v d hbf S

/-! ## Remaining claim theorems -/

/-- **C3.** When a migration's action throws inside a batch whose earlier
migrations succeeded: on a plain failure its record is persisted with
`valid = false`; on a `SafeMigrationError` the store is left exactly as it
was before the attempt; in both cases a fatal `ImmigrationError` is
raised, no later migration of the batch runs, and records written by the
earlier migrations remain persisted (every key other than the failing one
is untouched by the failure hand-off). -/
theorem migration_failure_semantics (acts : Actions) (dir : Dir) (date : Nat)
    (fore post : List JsStr) (f : JsStr) (s : StoreState)
    (safe : Bool) (code : Nat)
    (hfore : ∀ g ∈ fore, acts g dir = .ok)
    (hf : acts f dir = .fail safe code) :
    runFiles acts dir date (fore ++ f :: post) ⟨s, []⟩ =
      (⟨if safe then (runFiles acts dir date fore ⟨s, []⟩).1.store
        else upsert (runFiles acts dir date fore ⟨s, []⟩).1.store f false date,
        fore ++ [f]⟩,
       some (if safe then MErr.safeFailed f code
             else MErr.execFailed f code)) ∧
    (∀ g, g ≠ f →
      List.lookup g (runFiles acts dir date (fore ++ f :: post) ⟨s, []⟩).1.store
        = List.lookup g (runFiles acts dir date fore ⟨s, []⟩).1.store) := by
  have hmain := runFiles_fail_at acts dir date f post safe code hf fore ⟨s, []⟩ hfore
  refine ⟨by simpa using hmain, fun g hgf => ?_⟩
  rw [hmain]
  cases safe
  · simp only []
    exact lookup_upsert_ne f g false date hgf _
  · rfl

/-- The migration modules used by concrete runs: every action succeeds. -/
def okActs : Actions := fun _ _ => ActionRes.ok

/-- Actions where exactly `bad` fails, safely iff `safe`. -/
def failActsAt (bad : JsStr) (safe : Bool) : Actions := fun f _ =>
  if f = bad then ActionRes.fail safe 7 else ActionRes.ok

/-- Witness for C3 at a concrete input: second migration fails hard and
the record is marked invalid; with a safe error the store keeps only the
first record. -/
theorem migration_failure_semantics_witness :
    runFiles (failActsAt "2_test.js".data false) .up 0
        (["1_test.js".data] ++ "2_test.js".data :: []) ⟨[], []⟩ =
      (⟨if false then (runFiles (failActsAt "2_test.js".data false) .up 0
            ["1_test.js".data] ⟨[], []⟩).1.store
        else upsert (runFiles (failActsAt "2_test.js".data false) .up 0
            ["1_test.js".data] ⟨[], []⟩).1.store "2_test.js".data false 0,
        ["1_test.js".data] ++ ["2_test.js".data]⟩,
       some (if false then MErr.safeFailed "2_test.js".data 7
             else MErr.execFailed "2_test.js".data 7)) := by
  exact (migration_failure_semantics (failActsAt "2_test.js".data false) .up 0
    ["1_test.js".data] [] "2_test.js".data [] false 7
    (by intro g hg; cases hg with
        | head => decide
        | tail _ h => cases h)
    (by decide)).1

/-- **C5.** On a non-empty migration directory and an empty execution
history, `migrate("up", {all: true})` (with every `up` action defined and
succeeding) runs each migration's action exactly once in ascending
lexicographic order, returns the full ordered list of names, and leaves
the history holding exactly those names, each `valid = true`. -/
theorem migrate_up_all_empty (acts : Actions) (ext : JsStr)
    (dirFiles : List JsStr) (date : Nat)
    (hnd : dirFiles.Nodup)
    (hne : sortedFiltered ext dirFiles ≠ [])
    (hacts : ∀ f ∈ sortedFiltered ext dirFiles, acts f .up = .ok) :
    migrateRun acts .up {all := true} ext dirFiles [] date =
      (⟨(sortedFiltered ext dirFiles).map (fun f => (f, true, date)),
        sortedFiltered ext dirFiles⟩, .ok (sortedFiltered ext dirFiles)) ∧
    (sortedFiltered ext dirFiles).Pairwise (· ≤ ·) ∧
    (sortedFiltered ext dirFiles).Nodup := by
  have hlist : list ext dirFiles ⟨none, false, none, none⟩
      = .ok (sortedFiltered ext dirFiles) := by
    have h := (list_spec ext dirFiles ⟨none, false, none, none⟩ hnd).2.2.2
      (fun g hg => by cases hg) (fun t ht => by cases ht) (fun _ => hne)
    have hfe : (sortedFiltered ext dirFiles).filter
        (inWindow ⟨none, false, none, none⟩) = sortedFiltered ext dirFiles :=
      List.filter_eq_self.mpr (fun x _ => rfl)
    rw [h, hfe]
    rfl
  have hplan : migratePlan .up {all := true} ext dirFiles []
      = .ok (some (sortedFiltered ext dirFiles)) := by
    obtain ⟨a, rest, hcons⟩ : ∃ a rest,
        sortedFiltered ext dirFiles = a :: rest := by
      cases h : sortedFiltered ext dirFiles with
      | nil => exact absurd h hne
      | cons a rest => exact ⟨a, rest, rfl⟩
    calc migratePlan .up {all := true} ext dirFiles []
        = Except.bind (Except.bind
            (list ext dirFiles ⟨none, false, none, none⟩)
            (fun files => pure (if files.head? = (none : Option JsStr)
              then files.drop 1 else files)))
            (fun files => if files.isEmpty then pure none
              else pure (some files)) := rfl
      _ = .ok (some (sortedFiltered ext dirFiles)) := by
          rw [hlist, hcons]
          rfl
  refine ⟨?_, sortedFiltered_sorted ext dirFiles, sortedFiltered_nodup ext hnd⟩
  calc migrateRun acts .up {all := true} ext dirFiles [] date
      = (match runFiles acts .up date (sortedFiltered ext dirFiles)
            ⟨[], []⟩ with
          | (st, none) => (st, Except.ok (sortedFiltered ext dirFiles))
          | (st, some e) => (st, Except.error e)) := by
        rw [migrateRun, if_neg (by decide), if_neg (by decide), hplan]
    _ = (⟨(sortedFiltered ext dirFiles).map (fun f => (f, true, date)),
          sortedFiltered ext dirFiles⟩, .ok (sortedFiltered ext dirFiles)) := by
        rw [runFiles_up_ok acts date (sortedFiltered ext dirFiles) ⟨[], []⟩
          hacts (fun f _ hmem => by simp [StoreState.keys] at hmem)
          (sortedFiltered_nodup ext hnd)]
        simp

/-- Witness for C5 on the repository's own test migration set. -/
theorem migrate_up_all_empty_witness :
    migrateRun okActs .up {all := true} ".js".data
        ["1_test.js".data, "2_test.js".data] [] 0 =
      (⟨[("1_test.js".data, true, 0), ("2_test.js".data, true, 0)],
        ["1_test.js".data, "2_test.js".data]⟩,
       .ok ["1_test.js".data, "2_test.js".data]) := by
  have h := (migrate_up_all_empty okActs ".js".data
    ["1_test.js".data, "2_test.js".data] 0 (by decide)
    (by intro h; cases h) (fun f _ => rfl)).1
  rw [h]
  rfl

/-- The spec-side MigrationId derivation: the filename with its extension
stripped. -/
def stripExtension (f : JsStr) : JsStr :=
  f.take (f.length - (extname f).length)

/-- **C9 (counterexample).** The engine's MigrationId is not the filename
with its extension stripped: running `up --all` on the single file
`1_test.js` returns and records the name `1_test.js` itself, not
`1_test`. -/
theorem migrationId_counterexample :
    (migrateRun okActs .up {all := true} ".js".data ["1_test.js".data] [] 0).2
      = .ok ["1_test.js".data] ∧
    (migrateRun okActs .up {all := true} ".js".data
        ["1_test.js".data] [] 0).1.store
      = [("1_test.js".data, true, 0)] ∧
    stripExtension "1_test.js".data = "1_test".data ∧
    "1_test.js".data ≠ "1_test".data :=
  ⟨rfl, rfl, by decide, by decide⟩

/-- **C9 (amended).** The MigrationId used throughout the engine is the
filename itself, extension included: the lister yields directory entries
verbatim, and the executor records exactly the listed filenames. -/
theorem migrationId_is_filename (acts : Actions) (date : Nat)
    (files : List JsStr) (hnd : files.Nodup)
    (hacts : ∀ f ∈ files, acts f .up = .ok) :
    (runFiles acts .up date files ⟨[], []⟩).1.store
      = files.map (fun f => (f, true, date)) ∧
    (runFiles acts .up date files ⟨[], []⟩).1.ran = files ∧
    (∀ ext dirFiles, ∀ x ∈ sortedFiltered ext dirFiles, x ∈ dirFiles) := by
  have h := runFiles_up_ok acts date files ⟨[], []⟩ hacts
    (fun f _ hmem => by simp [StoreState.keys] at hmem) hnd
  rw [h]
  exact ⟨by simp, by simp, fun ext dirFiles => sortedFiltered_sub ext dirFiles⟩

/-- On a strictly ascending list, the first element surviving a filter
whose hits are all `≥ L` and which accepts the member `L` is `L`. -/
theorem filter_head_of_strict {l : List JsStr} (hs : l.Pairwise (· < ·))
    {L : JsStr} {p : JsStr → Bool} (hL : L ∈ l) (hpL : p L = true)
    (hlow : ∀ x, p x = true → L ≤ x) :
    (l.filter p).head? = some L := by
  induction l with
  | nil => cases hL
  | cons a l ih =>
    have hlt : ∀ x ∈ l, a < x := fun x hx => (List.pairwise_cons.mp hs).1 x hx
    rcases List.mem_cons.mp hL with rfl | hmem
    · rw [List.filter_cons_of_pos hpL]
      rfl
    · have haL : a < L := hlt L hmem
      have hpa : p a = false := by
        cases hpa : p a
        · rfl
        · exact absurd (hlow a hpa) (not_le_of_lt haL)
      rw [List.filter_cons_of_neg (by simp [hpa])]
      exact ih (List.Pairwise.of_cons hs) hmem

/-- Dropping the last element of a reversed list is reversing its tail. -/
theorem reverse_dropLast (l : List JsStr) :
    l.reverse.dropLast = (l.drop 1).reverse := by
  cases l with
  | nil => rfl
  | cons a t =>
    rw [List.reverse_cons, List.dropLast_concat]
    rfl

/-- **C8.** The post-validation batch excludes the boundary entry per
direction: with latest-executed migration `L` and target `tgt` both on
disk, the "up" batch contains exactly the files strictly after `L` and up
to `tgt` inclusive (the latest is not re-run, `to` is inclusive), while
the "down" batch contains exactly the files strictly after `tgt` and up
to `L` inclusive (the target named by `to` is not rolled back). -/
theorem select_boundary_exclusion (ext tgt L : JsStr) (dirFiles : List JsStr)
    (hnd : dirFiles.Nodup) (hLne : L ≠ []) (hTne : tgt ≠ [])
    (hL : L ∈ sortedFiltered ext dirFiles)
    (hT : tgt ∈ sortedFiltered ext dirFiles) :
    (∃ files, selectFiles .up tgt (some L) ext dirFiles = .ok files ∧
      ∀ x, x ∈ files ↔
        (x ∈ sortedFiltered ext dirFiles ∧ L < x ∧ x ≤ tgt)) ∧
    (∃ files, selectFiles .down tgt (some L) ext dirFiles = .ok files ∧
      ∀ x, x ∈ files ↔
        (x ∈ sortedFiltered ext dirFiles ∧ tgt < x ∧ x ≤ L)) := by
  have hstrict := sortedFiltered_strict ext hnd
  have hsL : strOpt L = some L := if_neg hLne
  have hsT : strOpt tgt = some tgt := if_neg hTne
  constructor
  · -- up: window [L .. tgt], head L shifted away
    have hup := (list_spec ext dirFiles ⟨none, false, some L, some tgt⟩
      hnd).2.2.2
      (fun g hg => by cases hg; exact hL)
      (fun t ht => by cases ht; exact hT)
      (fun h => by cases h)
    have hlistU : list ext dirFiles ⟨none, false, some L, some tgt⟩
        = .ok ((sortedFiltered ext dirFiles).filter
          (fun x => decide (L ≤ x) && decide (x ≤ tgt))) := by
      rw [hup]
      rfl
    have hsel : selectFiles .up tgt (some L) ext dirFiles
        = .ok (if ((sortedFiltered ext dirFiles).filter
              (fun x => decide (L ≤ x) && decide (x ≤ tgt))).head? = some L
            then ((sortedFiltered ext dirFiles).filter
              (fun x => decide (L ≤ x) && decide (x ≤ tgt))).drop 1
            else (sortedFiltered ext dirFiles).filter
              (fun x => decide (L ≤ x) && decide (x ≤ tgt))) := by
      calc selectFiles .up tgt (some L) ext dirFiles
          = Except.bind (list ext dirFiles ⟨none, false, strOpt L, strOpt tgt⟩)
              (fun files => pure (if files.head? = some L
                then files.drop 1 else files)) := rfl
        _ = _ := by
            rw [hsL, hsT, hlistU]
            rfl
    by_cases hTL : L ≤ tgt
    · have hWhead : ((sortedFiltered ext dirFiles).filter
          (fun x => decide (L ≤ x) && decide (x ≤ tgt))).head? = some L :=
        filter_head_of_strict hstrict hL (by simp [hTL])
          (fun x hx => by
            simp only [Bool.and_eq_true, decide_eq_true_eq] at hx
            exact hx.1)
      cases hW : (sortedFiltered ext dirFiles).filter
          (fun x => decide (L ≤ x) && decide (x ≤ tgt)) with
      | nil => rw [hW] at hWhead; cases hWhead
      | cons b rest =>
        have hbL : b = L := by
          rw [hW] at hWhead
          simpa using hWhead
        rw [hbL] at hW
        rw [hW] at hsel
        refine ⟨rest, by simpa using hsel, fun x => ?_⟩
        constructor
        · intro hx
          have hxW : x ∈ (sortedFiltered ext dirFiles).filter
              (fun x => decide (L ≤ x) && decide (x ≤ tgt)) :=
            hW ▸ List.mem_cons_of_mem L hx
          obtain ⟨hxsf, hpx⟩ := List.mem_filter.mp hxW
          simp only [Bool.and_eq_true, decide_eq_true_eq] at hpx
          have hWnd := (sortedFiltered_nodup ext hnd).filter
            (fun x => decide (L ≤ x) && decide (x ≤ tgt))
          rw [hW] at hWnd
          have hxne : x ≠ L := by
            rintro rfl
            exact (List.nodup_cons.mp hWnd).1 hx
          exact ⟨hxsf, lt_of_le_of_ne hpx.1 (Ne.symm hxne), hpx.2⟩
        · rintro ⟨hxsf, hLx, hxT⟩
          have hxW : x ∈ (sortedFiltered ext dirFiles).filter
              (fun x => decide (L ≤ x) && decide (x ≤ tgt)) :=
            List.mem_filter.mpr ⟨hxsf, by simp [le_of_lt hLx, hxT]⟩
          rw [hW] at hxW
          rcases List.mem_cons.mp hxW with rfl | hx
          · exact absurd hLx (lt_irrefl x)
          · exact hx
    · have hWnil : (sortedFiltered ext dirFiles).filter
          (fun x => decide (L ≤ x) && decide (x ≤ tgt)) = [] :=
        List.filter_eq_nil_iff.mpr fun x _ => by
          simp only [Bool.and_eq_true, decide_eq_true_eq, not_and]
          intro hLx hxT
          exact hTL (le_trans hLx hxT)
      rw [hWnil] at hsel
      refine ⟨[], by simpa using hsel, fun x => ?_⟩
      simp only [List.not_mem_nil, false_iff, not_and]
      intro _ hLx hxT
      exact absurd (le_trans (le_of_lt hLx) hxT) hTL
  · -- down: reversed window [tgt .. L], target popped from the back
    have hdn := (list_spec ext dirFiles ⟨none, true, some tgt, some L⟩
      hnd).2.2.2
      (fun g hg => by cases hg; exact hT)
      (fun t ht => by cases ht; exact hL)
      (fun h => by cases h)
    have hlistD : list ext dirFiles ⟨none, true, some tgt, some L⟩
        = .ok ((sortedFiltered ext dirFiles).filter
          (fun x => decide (tgt ≤ x) && decide (x ≤ L))).reverse := by
      rw [hdn]
      rfl
    have hsel : selectFiles .down tgt (some L) ext dirFiles
        = .ok (if ((sortedFiltered ext dirFiles).filter
              (fun x => decide (tgt ≤ x) && decide (x ≤ L))).reverse.getLast?
              = some tgt
            then ((sortedFiltered ext dirFiles).filter
              (fun x => decide (tgt ≤ x) && decide (x ≤ L))).reverse.dropLast
            else ((sortedFiltered ext dirFiles).filter
              (fun x => decide (tgt ≤ x) && decide (x ≤ L))).reverse) := by
      calc selectFiles .down tgt (some L) ext dirFiles
          = Except.bind (list ext dirFiles ⟨none, true, strOpt tgt, strOpt L⟩)
              (fun files => pure (if files.getLast? = some tgt
                then files.dropLast else files)) := rfl
        _ = _ := by
            rw [hsT, hsL, hlistD]
            rfl
    by_cases hTL : tgt ≤ L
    · have hWhead : ((sortedFiltered ext dirFiles).filter
          (fun x => decide (tgt ≤ x) && decide (x ≤ L))).head? = some tgt :=
        filter_head_of_strict hstrict hT (by simp [hTL])
          (fun x hx => by
            simp only [Bool.and_eq_true, decide_eq_true_eq] at hx
            exact hx.1)
      cases hW : (sortedFiltered ext dirFiles).filter
          (fun x => decide (tgt ≤ x) && decide (x ≤ L)) with
      | nil => rw [hW] at hWhead; cases hWhead
      | cons b rest =>
        have hbT : b = tgt := by
          rw [hW] at hWhead
          simpa using hWhead
        rw [hbT] at hW
        rw [hW] at hsel
        rw [List.getLast?_reverse] at hsel
        refine ⟨rest.reverse, ?_, fun x => ?_⟩
        · rw [hsel]
          simp [reverse_dropLast]
        · rw [List.mem_reverse]
          constructor
          · intro hx
            have hxW : x ∈ (sortedFiltered ext dirFiles).filter
                (fun x => decide (tgt ≤ x) && decide (x ≤ L)) :=
              hW ▸ List.mem_cons_of_mem tgt hx
            obtain ⟨hxsf, hpx⟩ := List.mem_filter.mp hxW
            simp only [Bool.and_eq_true, decide_eq_true_eq] at hpx
            have hWnd := (sortedFiltered_nodup ext hnd).filter
              (fun x => decide (tgt ≤ x) && decide (x ≤ L))
            rw [hW] at hWnd
            have hxne : x ≠ tgt := by
              rintro rfl
              exact (List.nodup_cons.mp hWnd).1 hx
            exact ⟨hxsf, lt_of_le_of_ne hpx.1 (Ne.symm hxne), hpx.2⟩
          · rintro ⟨hxsf, hTx, hxL⟩
            have hxW : x ∈ (sortedFiltered ext dirFiles).filter
                (fun x => decide (tgt ≤ x) && decide (x ≤ L)) :=
              List.mem_filter.mpr ⟨hxsf, by simp [le_of_lt hTx, hxL]⟩
            rw [hW] at hxW
            rcases List.mem_cons.mp hxW with rfl | hx
            · exact absurd hTx (lt_irrefl x)
            · exact hx
    · have hWnil : (sortedFiltered ext dirFiles).filter
          (fun x => decide (tgt ≤ x) && decide (x ≤ L)) = [] :=
        List.filter_eq_nil_iff.mpr fun x _ => by
          simp only [Bool.and_eq_true, decide_eq_true_eq, not_and]
          intro hTx hxL
          exact hTL (le_trans hTx hxL)
      rw [hWnil] at hsel
      refine ⟨[], by simpa using hsel, fun x => ?_⟩
      simp only [List.not_mem_nil, false_iff, not_and]
      intro _ hTx hxL
      exact absurd (le_trans (le_of_lt hTx) hxL) hTL

/-- Witness for C8 on the repository's test migration set: latest
`1_test.js`, target `2_test.js` going up; latest `2_test.js`, target
`1_test.js` going down. -/
theorem select_boundary_exclusion_witness :
    (∃ files, selectFiles .up "2_test.js".data (some "1_test.js".data)
        ".js".data ["1_test.js".data, "2_test.js".data] = .ok files ∧
      ∀ x, x ∈ files ↔
        (x ∈ sortedFiltered ".js".data ["1_test.js".data, "2_test.js".data] ∧
          "1_test.js".data < x ∧ x ≤ "2_test.js".data)) ∧
    (∃ files, selectFiles .down "2_test.js".data (some "1_test.js".data)
        ".js".data ["1_test.js".data, "2_test.js".data] = .ok files ∧
      ∀ x, x ∈ files ↔
        (x ∈ sortedFiltered ".js".data ["1_test.js".data, "2_test.js".data] ∧
          "2_test.js".data < x ∧ x ≤ "1_test.js".data)) :=
  select_boundary_exclusion ".js".data "2_test.js".data "1_test.js".data
    ["1_test.js".data, "2_test.js".data] (by decide) (by decide) (by decide)
    (by decide) (by decide)

/-- Definitional unfolding of `migratePlan` for "up". -/
theorem migratePlan_up_eq (o : MigOpts) (ext : JsStr)
    (dirFiles : List JsStr) (s : StoreState) :
    migratePlan .up o ext dirFiles s =
      Except.bind (validateLatest o.check none ext dirFiles
          (fsHistory ⟨some o.check, true, none, none⟩ s))
        (fun latestName? =>
          Except.bind (selectFiles .up o.tgt latestName? ext dirFiles)
            (fun files => if files.isEmpty then pure none
              else if o.dryRun then pure none else pure (some files))) := rfl

/-- Definitional unfolding of `migratePlan` for "down". -/
theorem migratePlan_down_eq (o : MigOpts) (ext : JsStr)
    (dirFiles : List JsStr) (s : StoreState) :
    migratePlan .down o ext dirFiles s =
      Except.bind (validateLatest o.check (strOpt o.tgt) ext dirFiles
          (fsHistory ⟨some o.check, true, strOpt o.tgt, none⟩ s))
        (fun latestName? =>
          Except.bind (selectFiles .down o.tgt latestName? ext dirFiles)
            (fun files => if files.isEmpty then pure none
              else if o.dryRun then pure none else pure (some files))) := rfl

/-- The three error classes the consistency walk itself can raise. -/
def isThreeErr : MErr → Bool
  | .notRun _ => true
  | .cannotFind _ => true
  | .invalidState _ => true
  | _ => false

/-- **C2 (counterexample).** When the file of the *latest* recorded
migration is missing from disk, the operation fails not with one of the
three walk errors but with the lister's boundary error ("does not exist"),
because the validation window is listed with `lte: latest.name` before the
walk runs; no migration executes and nothing is written, but the error is
a fourth kind. -/
theorem consistency_latest_missing_counterexample :
    migrateRun okActs .up {all := true} ".js".data ["a.js".data]
        [("b.js".data, true, 0)] 0
      = (⟨[("b.js".data, true, 0)], []⟩,
         .error (.notExist (some "b.js".data))) ∧
    isThreeErr (.notExist (some "b.js".data)) = false :=
  ⟨rfl, rfl⟩

/-- **C2 (amended).** Before any migration of a batch executes, the
consistency walk checks the recorded history (newest toward the target,
bounded by `check`) against the listed files: (i) the walk itself fails
only with the three errors "has not been run yet" (a file ahead of
history), "cannot be found" (a non-latest history entry without a file),
or "is in an invalid state" (`valid = false`); (ii) it passes exactly when
every walked pair matches a valid history entry with its own file; (iii)
whenever the plan fails — with a walk error, or with the lister's
"does not exist" error when the latest recorded entry's own file is
missing — no migration action is executed and no record is written; (iv)
in particular a missing latest file on "up" yields the boundary error. -/
theorem consistency_check_semantics :
    (∀ pairs e, checkPairs pairs = .error e → isThreeErr e = true) ∧
    (∀ pairs : List (Option Execution × Option JsStr),
      checkPairs pairs = .ok () ↔
      ∀ p ∈ pairs, ∃ ex, p = (some ex, some ex.name) ∧ ex.valid = true) ∧
    (∀ (acts : Actions) (dir : Dir) (o : MigOpts) (ext : JsStr)
      (dirFiles : List JsStr) (s : StoreState) (date : Nat) (e : MErr),
      o.all ≠ decide (o.tgt ≠ []) → 1 ≤ o.check →
      migratePlan dir o ext dirFiles s = .error e →
      migrateRun acts dir o ext dirFiles s date = (⟨s, []⟩, .error e)) ∧
    (∀ (o : MigOpts) (ext : JsStr) (dirFiles : List JsStr) (s : StoreState)
      (latest : Execution) (rest : List Execution),
      fsHistory ⟨some o.check, true, none, none⟩ s = latest :: rest →
      latest.name ∉ sortedFiltered ext dirFiles → latest.name ≠ [] →
      dirFiles.Nodup →
      migratePlan .up o ext dirFiles s
        = .error (.notExist (some latest.name))) := by
  refine ⟨?_, ?_, ?_, ?_⟩
  · intro pairs
    induction pairs with
    | nil => intro e he; cases he
    | cons p rest ih =>
      obtain ⟨e?, f?⟩ := p
      intro e he
      cases e? with
      | none =>
        rw [checkPairs_cons_none] at he
        cases he
        rfl
      | some ex =>
        rw [checkPairs_cons_some] at he
        split at he
        · cases he; rfl
        · split at he
          · cases he; rfl
          · split at he
            · cases he; rfl
            · exact ih e he
  · intro pairs
    induction pairs with
    | nil =>
      simp [checkPairs]
    | cons p rest ih =>
      obtain ⟨e?, f?⟩ := p
      constructor
      · intro hok
        cases e? with
        | none => rw [checkPairs_cons_none] at hok; cases hok
        | some ex =>
          rw [checkPairs_cons_some] at hok
          split at hok
          · cases hok
          · split at hok
            · cases hok
            · split at hok
              · cases hok
              · next h1 h2 h3 =>
                intro p hp
                rcases List.mem_cons.mp hp with rfl | hmem
                · cases f? with
                  | none => simp at h2
                  | some f =>
                    have hle : f ≤ ex.name := not_lt.mp (by simpa using h1)
                    have hge : ex.name ≤ f := not_lt.mp (by simpa using h2)
                    have hval : ex.valid = true := by
                      cases hv : ex.valid
                      · rw [hv] at h3; simp at h3
                      · rfl
                    exact ⟨ex, by rw [le_antisymm hle hge], hval⟩
                · exact (ih.mp hok) p hmem
      · intro hall
        obtain ⟨ex, hpair, hval⟩ := hall (e?, f?) (List.mem_cons_self _ _)
        obtain ⟨rfl, rfl⟩ : e? = some ex ∧ f? = some ex.name := by
          constructor
          · exact congrArg Prod.fst hpair
          · exact congrArg Prod.snd hpair
        rw [checkPairs_cons_some]
        have h1 : ¬ ((some ex.name).getD [] > ex.name) := by
          simp
        have h2 : ¬ ((match some ex.name with
            | none => true
            | some f => decide (f < ex.name)) = true) := by
          simp
        have h3 : ¬ ((!ex.valid) = true) := by
          simp [hval]
        rw [if_neg h1, if_neg h2, if_neg h3]
        exact ih.mpr fun p hp => hall p (List.mem_cons_of_mem _ hp)
  · intro acts dir o ext dirFiles s date e hguard hcheck hplan
    rw [migrateRun, if_neg hguard, if_neg (Nat.not_lt.mpr hcheck), hplan]
  · intro o ext dirFiles s latest rest hhist hnm hne hnd
    have hlte : strOpt latest.name = some latest.name := if_neg hne
    have hlist := (list_spec ext dirFiles
        ⟨some o.check, true, none, some latest.name⟩ hnd).2.1 latest.name rfl
      hnm (fun g hg => by cases hg)
    rw [migratePlan_up_eq, hhist]
    have hv : validateLatest o.check none ext dirFiles (latest :: rest)
        = .error (.notExist (some latest.name)) := by
      rw [validateLatest, hlte, hlist]
      rfl
    rw [hv]
    rfl

/-- Witness for C2 (amended) at concrete inputs: a walk error is one of
the three kinds, and an invalid record aborts the run with the store
untouched and nothing executed. -/
theorem consistency_check_semantics_witness :
    isThreeErr (MErr.cannotFind "a.js".data) = true ∧
    migrateRun okActs .up {all := true} ".js".data ["a.js".data]
        [("a.js".data, false, 0)] 0
      = (⟨[("a.js".data, false, 0)], []⟩,
         .error (.invalidState "a.js".data)) := by
  have h := consistency_check_semantics
  refine ⟨h.1 [(some ⟨"a.js".data, true, 0⟩, none)]
    (MErr.cannotFind "a.js".data) rfl, ?_⟩
  exact h.2.2.1 okActs .up {all := true} ".js".data ["a.js".data]
    [("a.js".data, false, 0)] 0 (MErr.invalidState "a.js".data)
    (by decide) (by decide) rfl

/-- A successful `lookup` means the key is present. -/
theorem lookup_some_mem {X : JsStr} {v : Bool × Nat} :
    ∀ {s : StoreState}, List.lookup X s = some v → X ∈ s.keys := by
  intro s
  induction s with
  | nil => intro h; cases h
  | cons e t ih =>
    obtain ⟨k, v', d'⟩ := e
    intro h
    by_cases hxk : X = k
    · exact List.mem_cons.mpr (Or.inl hxk)
    · have hbe : (X == k) = false := by simpa using hxk
      rw [List.lookup_cons, hbe] at h
      exact List.mem_cons_of_mem k (ih h)

/-- Filtering a duplicate-free list by a predicate that holds exactly at
its member `X` leaves the singleton `[X]`. -/
theorem filter_eq_singleton_of_mem {l : List JsStr} {X : JsStr}
    {p : JsStr → Bool} (hnd : l.Nodup) (hX : X ∈ l)
    (hp : ∀ k ∈ l, (p k = true ↔ k = X)) :
    l.filter p = [X] := by
  induction l with
  | nil => cases hX
  | cons a t ih =>
    rcases List.mem_cons.mp hX with rfl | hmem
    · rw [List.filter_cons_of_pos ((hp X (List.mem_cons_self X t)).mpr rfl)]
      have hnil : t.filter p = [] := List.filter_eq_nil_iff.mpr fun y hy hpy =>
        (List.nodup_cons.mp hnd).1
          (((hp y (List.mem_cons_of_mem X hy)).mp hpy) ▸ hy)
      rw [hnil]
    · have hpa : ¬ p a = true := fun hpa =>
        (List.nodup_cons.mp hnd).1
          (((hp a (List.mem_cons_self a t)).mp hpa).symm ▸ hmem)
      rw [List.filter_cons_of_neg hpa]
      exact ih (List.nodup_cons.mp hnd).2 hmem
        (fun k hk => hp k (List.mem_cons_of_mem a hk))

/-- **C7.** `migrate("down", {to: X})` is idempotent in effect: from the
state a successful roll-back to `X` leaves behind — `X`'s own record still
present and valid, no recorded migration above `X`, and `X`'s file on
disk — a second call executes no migration action, returns the empty
list, and leaves the stored history unchanged. -/
theorem migrate_down_to_idempotent (acts : Actions) (ext : JsStr)
    (dirFiles : List JsStr) (date : Nat) (s : StoreState) (X : JsStr)
    (dX : Nat)
    (hnd : dirFiles.Nodup) (hknd : s.keys.Nodup)
    (hXmem : X ∈ sortedFiltered ext dirFiles) (hXne : X ≠ [])
    (hlook : List.lookup X s = some (true, dX))
    (hkeys : ∀ k ∈ s.keys, k ≤ X) :
    migrateRun acts .down {tgt := X} ext dirFiles s date
      = (⟨s, []⟩, .ok []) := by
  have hsX : strOpt X = some X := if_neg hXne
  -- the only remaining recorded (and listed) name at or above X is X itself
  have hsingWin : ∀ cnt rev,
      (sortedFiltered ext dirFiles).filter
        (inWindow ⟨cnt, rev, some X, some X⟩) = [X] := fun cnt rev =>
    filter_eq_singleton_of_mem (sortedFiltered_nodup ext hnd) hXmem
      (fun k _ => by
        simp only [inWindow, Bool.and_eq_true, decide_eq_true_eq]
        constructor
        · rintro ⟨h1, h2⟩
          exact le_antisymm h2 h1
        · rintro rfl
          exact ⟨le_refl k, le_refl k⟩)
  have hlistV : list ext dirFiles ⟨some 50, true, some X, some X⟩
      = .ok [X] := by
    have h := (list_spec ext dirFiles ⟨some 50, true, some X, some X⟩
      hnd).2.2.2
      (fun g hg => by cases hg; exact hXmem)
      (fun t ht => by cases ht; exact hXmem)
      (fun h => by cases h)
    rw [h, hsingWin (some 50) true]
    rfl
  have hlistV2 : list ext dirFiles ⟨none, true, some X, some X⟩
      = .ok [X] := by
    have h := (list_spec ext dirFiles ⟨none, true, some X, some X⟩
      hnd).2.2.2
      (fun g hg => by cases hg; exact hXmem)
      (fun t ht => by cases ht; exact hXmem)
      (fun h => by cases h)
    rw [h, hsingWin none true]
    rfl
  -- the history window from X holds exactly X's record
  have hfilterK : (List.insertionSort (· ≤ ·) s.keys).filter
      (fun k => decide (¬ k < X) && true) = [X] :=
    filter_eq_singleton_of_mem
      ((List.perm_insertionSort _ _).nodup_iff.mpr hknd)
      ((List.mem_insertionSort _).mpr (lookup_some_mem hlook))
      (fun k hk => by
        have hkX : k ≤ X := hkeys k ((List.mem_insertionSort _).mp hk)
        simp only [Bool.and_true, decide_eq_true_eq, not_lt]
        constructor
        · intro hXk
          exact le_antisymm hkX hXk
        · rintro rfl
          exact le_refl k)
  have hhist : fsHistory ⟨some 50, true, some X, none⟩ s
      = [⟨X, true, dX⟩] := by
    calc fsHistory ⟨some 50, true, some X, none⟩ s
        = ((((List.insertionSort (· ≤ ·) s.keys).filter
              (fun k => decide (¬ k < X) && true)).filterMap
              (fun k => (List.lookup k s).map
                (fun e => Execution.mk k e.1 e.2))).reverse).take 50 := rfl
      _ = [⟨X, true, dX⟩] := by
          rw [hfilterK]
          simp [hlook]
  have hcheckOK : checkPairs (zipLongest [(⟨X, true, dX⟩ : Execution)] [X])
      = .ok () := by
    show checkPairs [(some ⟨X, true, dX⟩, some X)] = .ok ()
    have h1 : ¬ ((some X).getD [] > (⟨X, true, dX⟩ : Execution).name) := by
      simp
    have h2 : ¬ ((match some X with
        | none => true
        | some f => decide (f < (⟨X, true, dX⟩ : Execution).name)) = true) := by
      simp
    have h3 : ¬ ((!(⟨X, true, dX⟩ : Execution).valid) = true) := by
      simp
    rw [checkPairs_cons_some, if_neg h1, if_neg h2, if_neg h3]
    rfl
  have hval : validateLatest 50 (some X) ext dirFiles [⟨X, true, dX⟩]
      = .ok (some X) := by
    calc validateLatest 50 (some X) ext dirFiles [⟨X, true, dX⟩]
        = Except.bind (list ext dirFiles ⟨some 50, true, some X, strOpt X⟩)
            (fun vfiles => Except.bind
              (checkPairs (zipLongest [(⟨X, true, dX⟩ : Execution)] vfiles))
              (fun _ => pure (some X))) := rfl
      _ = .ok (some X) := by
          rw [hsX, hlistV]
          show Except.bind
              (checkPairs (zipLongest [(⟨X, true, dX⟩ : Execution)] [X]))
              (fun _ => pure (some X)) = .ok (some X)
          rw [hcheckOK]
          rfl
  have hselD : selectFiles .down X (some X) ext dirFiles = .ok [] := by
    calc selectFiles .down X (some X) ext dirFiles
        = Except.bind (list ext dirFiles ⟨none, true, strOpt X, strOpt X⟩)
            (fun files => pure (if files.getLast? = some X
              then files.dropLast else files)) := rfl
      _ = .ok [] := by
          rw [hsX, hlistV2]
          show Except.ok (if ([X] : List JsStr).getLast? = some X
              then ([X] : List JsStr).dropLast else [X]) = .ok []
          have hcond : ([X] : List JsStr).getLast? = some X := rfl
          rw [if_pos hcond]
          rfl
  have hplanD : migratePlan .down {tgt := X} ext dirFiles s
      = .ok none := by
    calc migratePlan .down {tgt := X} ext dirFiles s
        = Except.bind (validateLatest 50 (strOpt X) ext dirFiles
            (fsHistory ⟨some 50, true, strOpt X, none⟩ s))
          (fun latestName? =>
            Except.bind (selectFiles .down X latestName? ext dirFiles)
              (fun files => if files.isEmpty then pure none
                else if (false : Bool) then pure none
                else pure (some files))) := rfl
      _ = .ok none := by
          rw [hsX, hhist, hval]
          show Except.bind (selectFiles .down X (some X) ext dirFiles)
              (fun files => if files.isEmpty then pure none
                else if (false : Bool) then pure none
                else pure (some files)) = .ok none
          rw [hselD]
          rfl
  have hg : ({tgt := X} : MigOpts).all
      ≠ decide (({tgt := X} : MigOpts).tgt ≠ []) := by
    show (false : Bool) ≠ decide (X ≠ [])
    rw [decide_eq_true hXne]
    simp
  have hc : ¬ (({tgt := X} : MigOpts).check < 1) := by
    show ¬ (50 < 1)
    decide
  rw [migrateRun, if_neg hg, if_neg hc, hplanD]

/-- Witness for C7 on the repository's test scenario after
`down --to 1_test.js` has run once. -/
theorem migrate_down_to_idempotent_witness :
    migrateRun okActs .down {tgt := "1_test.js".data} ".js".data
        ["1_test.js".data, "2_test.js".data]
        [("1_test.js".data, true, 0)] 0
      = (⟨[("1_test.js".data, true, 0)], []⟩, .ok []) :=
  migrate_down_to_idempotent okActs ".js".data
    ["1_test.js".data, "2_test.js".data] 0
    [("1_test.js".data, true, 0)] "1_test.js".data 0
    (by decide) (by decide) (by decide) (by decide) (by decide)
    (by decide)

/-- Witness for C9 (amended) at a concrete input. -/
theorem migrationId_is_filename_witness :
    (runFiles okActs .up 0 ["1_test.js".data] ⟨[], []⟩).1.store
      = [("1_test.js".data, true, 0)] ∧
    (runFiles okActs .up 0 ["1_test.js".data] ⟨[], []⟩).1.ran
      = ["1_test.js".data] := by
  have h := migrationId_is_filename okActs 0 ["1_test.js".data]
    (by decide) (fun f _ => rfl)
  exact ⟨h.1.trans (by decide), h.2.1.trans rfl⟩

end Immigration
